import Mathlib

/-!
# Verification of the Tetfu fumen codec (`src/scripts/fumen-parser.js`)

Shallow embedding of the fumen encode/decode library. JavaScript numbers
are modelled as `Nat` (digit values, packed descriptors, character codes)
or `Int` (field cells, which can become negative through `prev + diff - 8`).
JavaScript strings are modelled as `List Char` (encoded fumen text) or
`List Nat` (comment text, as its sequence of UTF-16 code-unit values — the
only representation `charCodeAt`/`fromCharCode` observe). The mutable parse
cursor `pos` threaded by reference through `details.poll` becomes explicit
"remaining digit list" state passing; the `throw`/`try`/`catch` pair
becomes `Except String` with `decode` mapping every error to `none`.

The top-level page loop (`while(pos.value < numData.length)`) and the field
run loop are given structurally recursive definitions (recursion on the
remaining digit stream, plus an explicit fuel counter for the page loop equal
to the stream length, which the source loop can never exceed because each
page consumes at least one digit) so that every definition evaluates inside
the kernel.
-/

namespace Tetfu

/-! ## Constants and data model (`FIELD_*`, `MinoType`, `Rotation`, `Piece`,
`Flags`, `FumenPage`) -/

def FIELD_WIDTH : Nat := 10
def FIELD_HEIGHT : Nat := 24
def FIELD_NUM_CELLS : Nat := FIELD_WIDTH * FIELD_HEIGHT

/-- `const FUMEN_VERSION = "v115@"`. -/
def FUMEN_VERSION : List Char := ['v', '1', '1', '5', '@']

/-- `piece` record: `{type, rotation, location}`. `MinoType` and `Rotation`
are plain numeric enums in the source (`N_BLOCK = 0 … G_BLOCK = 8`;
`South = 0, East = 1, North = 2, West = 3`). -/
structure Piece where
  type : Nat
  rotation : Nat
  location : Nat
  deriving DecidableEq, Repr

/-- `flags` record; `comment` is the raw (unescaped) comment string, as its
list of character codes. -/
structure Flags where
  raise : Bool
  mirror : Bool
  color : Bool
  lock : Bool
  comment : List Nat
  deriving DecidableEq, Repr

/-- One page of the fumen (`class FumenPage`). -/
structure FumenPage where
  field : List Int
  piece : Piece
  flags : Flags
  deriving DecidableEq, Repr

/-- `new Piece()`: type `N_BLOCK = 0`, rotation `North = 2`, location `0`. -/
def defaultPiece : Piece := ⟨0, 2, 0⟩

/-- `new Flags()`: raise `false`, mirror `false`, color `true`, lock `true`,
comment `""`. -/
def defaultFlags : Flags := ⟨false, false, true, true, []⟩

/-- `new FumenPage()`: all-zero 240-cell field, default piece and flags. -/
def defaultFumenPage : FumenPage :=
  ⟨List.replicate FIELD_NUM_CELLS 0, defaultPiece, defaultFlags⟩

/-! ## Alphabet digit codec (`details.ENCODE_TABLE` / `DECODE_TABLE`,
`details.unpoll`, `details.poll`) -/

/-- The 64-symbol alphabet. -/
def ENCODE_TABLE : List Char :=
  "ABCDEFGHIJKLMNOPQRSTUVWXYZabcdefghijklmnopqrstuvwxyz0123456789+/".toList

/-- `DECODE_TABLE.get(char) || 0`: the symbol's value, `0` for a symbol that
is not in the alphabet. -/
def decodeChar (c : Char) : Nat :=
  (ENCODE_TABLE.findIdx? (fun x => x == c)).getD 0

/-- `details.unpoll(value, numChars)`: `numChars` base-64 digits of `value`,
least significant first, each rendered through `ENCODE_TABLE`. -/
def unpoll : Nat → Nat → List Char
  | _, 0 => []
  | value, n + 1 => ENCODE_TABLE.getD (value % 64) 'A' :: unpoll (value / 64) n

deriving instance DecidableEq for Except

/-- `details.poll(data, pos, count)`: read `count` digit values starting at
the cursor, compose little-endian, advance the cursor; throw if fewer than
`count` digits remain. The cursor becomes the returned remainder list. -/
def poll : Nat → List Nat → Except String (Nat × List Nat)
  | 0, data => .ok (0, data)
  | _ + 1, [] => .error "Data stream ended unexpectedly during poll."
  | n + 1, d :: data =>
    match poll n data with
    | .ok (value, rest) => .ok (d + 64 * value, rest)
    | .error e => .error e

/-! ## Percent text codec (`details.percentEncode` / `details.percentDecode`),
over lists of character codes -/

/-- The pass-through test of `percentEncode`:
`[0-9]`, `[A-Z]`, `[a-z]`, `-`, `_`, `.`, `~`. -/
def isUnreservedCode (code : Nat) : Bool :=
  (48 ≤ code && code ≤ 57) || (65 ≤ code && code ≤ 90) ||
  (97 ≤ code && code ≤ 122) ||
  code == 45 || code == 95 || code == 46 || code == 126

/-- Code of the uppercase hex digit for `d < 16`. -/
def hexDigitCode (d : Nat) : Nat := if d < 10 then 48 + d else 55 + d

/-- `code.toString(16).toUpperCase()` as a code list, for any UTF-16
code-unit value (`code < 65536`, so at most four hex digits — JavaScript
`charCodeAt` can never produce more). -/
def toHexUpper (n : Nat) : List Nat :=
  if n < 16 then [hexDigitCode n]
  else if n < 256 then [hexDigitCode (n / 16), hexDigitCode (n % 16)]
  else if n < 4096 then
    [hexDigitCode (n / 256), hexDigitCode (n / 16 % 16), hexDigitCode (n % 16)]
  else
    [hexDigitCode (n / 4096 % 16), hexDigitCode (n / 256 % 16),
     hexDigitCode (n / 16 % 16), hexDigitCode (n % 16)]

/-- One character of `percentEncode`: pass through if unreserved, otherwise
`%` (code 37) plus the hex digits, zero-padded to width two. -/
def percentEncodeChar (code : Nat) : List Nat :=
  if isUnreservedCode code then [code]
  else
    let hex := toHexUpper code
    37 :: (if hex.length < 2 then 48 :: hex else hex)

/-- `details.percentEncode(str)`. -/
def percentEncode : List Nat → List Nat
  | [] => []
  | c :: s => percentEncodeChar c ++ percentEncode s

/-- The test `/^[0-9A-Fa-f]{2}$/` applied per digit. -/
def isHexDigitCode (code : Nat) : Bool :=
  (48 ≤ code && code ≤ 57) || (65 ≤ code && code ≤ 70) ||
  (97 ≤ code && code ≤ 102)

/-- Value of a hex digit code (`parseInt(hex, 16)` per digit). -/
def hexVal (code : Nat) : Nat :=
  if code ≤ 57 then code - 48 else if code ≤ 70 then code - 55 else code - 87

/-- `details.percentDecode(str)`: `%` followed by two hex digits decodes to
that code; a `%` not followed by two valid hex digits (or with fewer than
two characters after it) passes through literally. -/
def percentDecode : List Nat → List Nat
  | [] => []
  | [c] => [c]
  | [c, h1] => [c, h1]
  | c :: h1 :: h2 :: rest2 =>
    if c == 37 && isHexDigitCode h1 && isHexDigitCode h2 then
      (hexVal h1 * 16 + hexVal h2) :: percentDecode rest2
    else c :: percentDecode (h1 :: h2 :: rest2)

/-! ## Decode: field diff runs, descriptor, comment, page loop -/

/-- The digit extraction at the start of `decode`: drop filler `?` symbols,
map the rest through `DECODE_TABLE` (unknown symbols become `0`). -/
def toDigits (text : List Char) : List Nat :=
  (text.filter (fun c => c != '?')).map decodeChar

/-- The inner field loop of `decode`: with `n` cells still to fill and the
previous page's field values for those cells, repeatedly read one 2-digit
run value (`details.poll(numData, pos, 2)` inlined so that the recursion is
structural on the digit stream), derive `diff = value / 240` and
`repeat = value % 240 + 1`, and fill `min repeat n` cells as
`prev + diff - 8`. -/
def parseFieldAux : Nat → List Int → List Nat → Except String (List Int × List Nat)
  | 0, _, data => .ok ([], data)
  | _ + 1, _, [] => .error "Data stream ended unexpectedly during poll."
  | _ + 1, _, [_] => .error "Data stream ended unexpectedly during poll."
  | n + 1, prevField, d0 :: d1 :: data =>
    let value := d0 + 64 * d1
    let diff := value / FIELD_NUM_CELLS
    let rep := value % FIELD_NUM_CELLS + 1
    let k := min rep (n + 1)
    match parseFieldAux (n + 1 - k) (prevField.drop k) data with
    | .ok (restCells, rest) =>
      .ok ((prevField.take k).map (fun p => p + (diff : Int) - 8) ++ restCells, rest)
    | .error e => .error e

/-- The four characters reconstructed from one 5-digit comment chunk value:
`chunkValue % 96 + 32`, consuming `chunkValue = ⌊chunkValue / 96⌋` four
times. -/
def chunkChars (v : Nat) : List Nat :=
  [v % 96 + 32, v / 96 % 96 + 32, v / 96 / 96 % 96 + 32, v / 96 / 96 / 96 % 96 + 32]

/-- The comment chunk loop of `decode`: read `numChunks` 5-digit values and
concatenate their four characters each. -/
def parseChunks : Nat → List Nat → Except String (List Nat × List Nat)
  | 0, data => .ok ([], data)
  | n + 1, data =>
    match poll 5 data with
    | .ok (chunkValue, rest) =>
      match parseChunks n rest with
      | .ok (chars, rest2) => .ok (chunkChars chunkValue ++ chars, rest2)
      | .error e => .error e
    | .error e => .error e

/-- One iteration of the `decode` page loop: field runs, then the 3-digit
packed descriptor (unpacked in the order type, rotation, location, raise,
mirror, color, hasComment, lock — the lock bit stored inverted), then the
comment block when the `hasComment` bit is set. -/
def parsePage (prevPage : FumenPage) (data : List Nat) :
    Except String (FumenPage × List Nat) :=
  match parseFieldAux FIELD_NUM_CELLS prevPage.field data with
  | .error e => .error e
  | .ok (field, data1) =>
    match poll 3 data1 with
    | .error e => .error e
    | .ok (value, data2) =>
      let ptype := value % 8
      let v1 := value / 8
      let rotation := v1 % 4
      let v2 := v1 / 4
      let location := v2 % FIELD_NUM_CELLS
      let v3 := v2 / FIELD_NUM_CELLS
      let raise := v3 % 2 != 0
      let v4 := v3 / 2
      let mirror := v4 % 2 != 0
      let v5 := v4 / 2
      let color := v5 % 2 != 0
      let v6 := v5 / 2
      let hasComment := v6 % 2 != 0
      let v7 := v6 / 2
      let lock := v7 % 2 == 0
      if hasComment then
        match poll 2 data2 with
        | .error e => .error e
        | .ok (len, data3) =>
          let numChunks := (len + 3) / 4
          match parseChunks numChunks data3 with
          | .error e => .error e
          | .ok (chars, data4) =>
            .ok (⟨field, ⟨ptype, rotation, location⟩,
                  ⟨raise, mirror, color, lock, percentDecode (chars.take len)⟩⟩,
                 data4)
      else
        .ok (⟨field, ⟨ptype, rotation, location⟩,
              ⟨raise, mirror, color, lock, []⟩⟩, data2)

/-- The `while(pos.value < numData.length)` page loop. The fuel argument
makes the recursion structural; `decode` passes the stream length, which
the loop can never need to exceed since every successful page parse consumes
at least one digit. -/
def decodeLoop : Nat → FumenPage → List Nat → Except String (List FumenPage)
  | _, _, [] => .ok []
  | 0, _, _ :: _ => .error "Decoder fuel exhausted."
  | fuel + 1, prevPage, d :: data =>
    match parsePage prevPage (d :: data) with
    | .error e => .error e
    | .ok (page, rest) =>
      match decodeLoop fuel page rest with
      | .error e => .error e
      | .ok pages => .ok (page :: pages)

/-- `Fumen.decode(data)`: require the literal `v115@` tag, strip it, strip
filler symbols and map to digit values, then run the page loop; any thrown
parse error is caught and becomes `null` (`none`). The result is the decoded
`Fumen`'s page list. -/
def decode (text : List Char) : Option (List FumenPage) :=
  if text.take FUMEN_VERSION.length = FUMEN_VERSION then
    let numData := toDigits (text.drop FUMEN_VERSION.length)
    match decodeLoop numData.length defaultFumenPage numData with
    | .ok pages => some pages
    | .error _ => none
  else none

/-! ## Encode -/

/-- The run-flush loop of `encode`'s field pass, after the first cell has
been seen: `lastDiff` is the pending run's diff, `diffCount` the pending
run's length. Each flush emits `unpoll(lastDiff * 240 + diffCount - 1, 2)`
(the value computed in `Int` and clamped at `.toNat`, exact whenever the
pending diff is non-negative, as every diff of an in-range page is). -/
def encodeFieldAux : List Int → List Int → Int → Nat → List Char
  | c :: cs, p :: ps, lastDiff, diffCount =>
    let diff : Int := c - p + 8
    if diff ≠ lastDiff then
      unpoll (lastDiff * (FIELD_NUM_CELLS : Int) + (diffCount : Int) - 1).toNat 2 ++
        encodeFieldAux cs ps diff 1
    else
      encodeFieldAux cs ps lastDiff (diffCount + 1)
  | _, _, lastDiff, diffCount =>
    unpoll (lastDiff * (FIELD_NUM_CELLS : Int) + (diffCount : Int) - 1).toNat 2

/-- The field pass of `encode` for one page: run-length encode the per-cell
diffs `current[i] - previous[i] + 8`. -/
def encodeField (current previous : List Int) : List Char :=
  match current, previous with
  | c :: cs, p :: ps => encodeFieldAux cs ps (c - p + 8) 1
  | _, _ => unpoll ((0 : Int) * (FIELD_NUM_CELLS : Int) + (0 : Int) - 1).toNat 2

/-- The packed descriptor of `encode`: sequential `value = next + value * radix`
over `lock` (inverted), `hasComment`, `color`, `mirror`, `raise`, `location`,
`rotation`, `type` with radixes `2, 2, 2, 2, 240, 4, 8`. -/
def packValue (page : FumenPage) : Nat :=
  let v := if page.flags.lock then 0 else 1
  let v := (if page.flags.comment.length > 0 then 1 else 0) + v * 2
  let v := (if page.flags.color then 1 else 0) + v * 2
  let v := (if page.flags.mirror then 1 else 0) + v * 2
  let v := (if page.flags.raise then 1 else 0) + v * 2
  let v := page.piece.location + v * FIELD_NUM_CELLS
  let v := page.piece.rotation + v * 4
  page.piece.type + v * 8

/-- One chunk value of the comment pass:
`sum (charCode_j - 32) * 96 ^ j` over the up-to-four characters. -/
def chunkValue (a b c d : Nat) : Nat :=
  (a - 32) + (b - 32) * 96 + (c - 32) * 96 * 96 + (d - 32) * 96 * 96 * 96

/-- The comment chunk loop of `encode`, stepping four characters at a time
and padding a short final chunk with spaces (code 32). -/
def encodeChunks : List Nat → List Char
  | [] => []
  | [a] => unpoll (chunkValue a 32 32 32) 5
  | [a, b] => unpoll (chunkValue a b 32 32) 5
  | [a, b, c] => unpoll (chunkValue a b c 32) 5
  | a :: b :: c :: d :: rest => unpoll (chunkValue a b c d) 5 ++ encodeChunks rest

/-- The symbols `encode` emits for one page: field runs, 3-digit descriptor,
and — only when the comment is non-empty — the 2-digit escaped length and
the chunk digits. -/
def encodePage (prevPage currentPage : FumenPage) : List Char :=
  encodeField currentPage.field prevPage.field ++
  unpoll (packValue currentPage) 3 ++
  (if currentPage.flags.comment.length > 0 then
    let escapedComment := percentEncode currentPage.flags.comment
    unpoll escapedComment.length 2 ++ encodeChunks escapedComment
  else [])

/-- The page loop of `encode`, threading the previous page. -/
def encodeAux : FumenPage → List FumenPage → List Char
  | _, [] => []
  | prevPage, currentPage :: rest =>
    encodePage prevPage currentPage ++ encodeAux currentPage rest

/-- `Fumen.encode()` of a fumen with the given page list: the format tag
followed by every page's symbols, the first page diffed against
`new FumenPage()`. -/
def encode (pages : List FumenPage) : List Char :=
  FUMEN_VERSION ++ encodeAux defaultFumenPage pages

/-- Number of 2-digit run entries the field pass of `encode` emits for one
page's field. -/
def fieldRunEntries (current previous : List Int) : Nat :=
  (encodeField current previous).length / 2

/-! ## Validity: the §3/§4 range invariants of a page, relative to the
previous page used as diff baseline -/

/-- The per-cell diffs `current[i] - previous[i] + 8` of one page against
its baseline. -/
def fieldDiffs (current previous : List Int) : List Int :=
  List.zipWith (fun c p => c - p + 8) current previous

/-- Range invariants of a single page against its baseline: 240 cells, piece
ranges, every diff in `[0, 16]`, comment made of UTF-16 units `≤ 255` whose
escaped form is at most 4095 characters long. -/
def ValidPage (previous page : FumenPage) : Prop :=
  page.field.length = FIELD_NUM_CELLS ∧
  page.piece.type < 8 ∧ page.piece.rotation < 4 ∧
  page.piece.location < FIELD_NUM_CELLS ∧
  (∀ d ∈ fieldDiffs page.field previous.field, 0 ≤ d ∧ d ≤ 16) ∧
  (∀ c ∈ page.flags.comment, c ≤ 255) ∧
  (percentEncode page.flags.comment).length ≤ 4095

instance (previous page : FumenPage) : Decidable (ValidPage previous page) := by
  unfold ValidPage; infer_instance

/-- Range invariants of a whole page list, each page against its
predecessor, the first against `new FumenPage()`'s all-zero field. -/
def ValidChain : FumenPage → List FumenPage → Prop
  | _, [] => True
  | previous, page :: rest => ValidPage previous page ∧ ValidChain page rest

instance : ∀ (previous : FumenPage) (pages : List FumenPage),
    Decidable (ValidChain previous pages)
  | _, [] => .isTrue trivial
  | previous, page :: rest =>
    @instDecidableAnd _ _ _ (instDecidableValidChain page rest)

/-- Number of positions where two adjacent entries of a list differ; the run
count of a run-length encoding of the list is this plus one. -/
def changes : List Int → Nat
  | [] => 0
  | [_] => 0
  | a :: b :: rest => (if a = b then 0 else 1) + changes (b :: rest)

/-! ## Concrete pages used as witnesses and counterexamples -/

/-- Concrete case 1 of the spec: T piece (type 5), North rotation (2),
location 0, all-zero field, default flags, no comment. -/
def pageT : FumenPage :=
  ⟨List.replicate FIELD_NUM_CELLS 0, ⟨5, 2, 0⟩, ⟨false, false, true, true, []⟩⟩

/-- A default-piece page with an all-zero field and an `n`-character comment
of `A`s (code 65, unreserved, so its percent-encoded length is also `n`). -/
def commentPage (n : Nat) : FumenPage :=
  ⟨List.replicate FIELD_NUM_CELLS 0, ⟨0, 2, 0⟩,
    ⟨false, false, true, true, List.replicate n 65⟩⟩

/-- A page whose cells are all `9`, so that every diff against the all-zero
baseline is `9 + 8 = 17` in one 240-cell run. -/
def page17 : FumenPage :=
  ⟨List.replicate FIELD_NUM_CELLS 9, ⟨0, 2, 0⟩, ⟨false, false, true, true, []⟩⟩

/-- A page whose comment is the single code point 256. -/
def page256 : FumenPage :=
  ⟨List.replicate FIELD_NUM_CELLS 0, ⟨0, 2, 0⟩, ⟨false, false, true, true, [256]⟩⟩

/-- A page with piece type 8 (`G_BLOCK`, the 9th type value). -/
def page8 : FumenPage :=
  ⟨List.replicate FIELD_NUM_CELLS 0, ⟨8, 2, 0⟩, ⟨false, false, true, true, []⟩⟩

/-! ## Digit-level lemmas -/

/-- Little-endian base-64 digit values of `value`, the digit list underlying
`unpoll`. -/
def digitsLE : Nat → Nat → List Nat
  | _, 0 => []
  | v, n + 1 => v % 64 :: digitsLE (v / 64) n

theorem decodeChar_table : ∀ d < 64, decodeChar (ENCODE_TABLE.getD d 'A') = d := by
  decide

theorem table_ne_filler : ∀ d < 64, ENCODE_TABLE.getD d 'A' ≠ '?' := by
  decide

theorem length_unpoll (v n : Nat) : (unpoll v n).length = n := by
  induction n generalizing v with
  | zero => rfl
  | succ n ih => simp [unpoll, ih]

theorem length_digitsLE (v n : Nat) : (digitsLE v n).length = n := by
  induction n generalizing v with
  | zero => rfl
  | succ n ih => simp [digitsLE, ih]

theorem toDigits_append (a b : List Char) :
    toDigits (a ++ b) = toDigits a ++ toDigits b := by
  simp [toDigits]

theorem toDigits_unpoll (v n : Nat) : toDigits (unpoll v n) = digitsLE v n := by
  induction n generalizing v with
  | zero => rfl
  | succ n ih =>
    have hlt : v % 64 < 64 := Nat.mod_lt _ (by norm_num)
    have hne : ((ENCODE_TABLE.getD (v % 64) 'A') != '?') = true := by
      simpa using table_ne_filler (v % 64) hlt
    have ih' : List.map decodeChar (List.filter (fun c => c != '?') (unpoll (v / 64) n)) =
        digitsLE (v / 64) n := ih (v / 64)
    simp only [unpoll, digitsLE, toDigits, List.filter_cons, hne, if_true, List.map_cons]
    exact congrArg₂ (· :: ·) (decodeChar_table (v % 64) hlt) ih'

theorem poll_digitsLE (n : Nat) :
    ∀ (v : Nat) (rest : List Nat), v < 64 ^ n →
      poll n (digitsLE v n ++ rest) = .ok (v, rest) := by
  induction n with
  | zero =>
    intro v rest hv
    have hv0 : v = 0 := by simpa [Nat.lt_one_iff] using hv
    subst hv0
    rfl
  | succ n ih =>
    intro v rest hv
    have hdiv : v / 64 < 64 ^ n := by
      rw [Nat.div_lt_iff_lt_mul (by norm_num)]
      calc v < 64 ^ (n + 1) := hv
        _ = 64 ^ n * 64 := by ring
    have hsplit : v % 64 + 64 * (v / 64) = v := by omega
    simp only [digitsLE, List.cons_append, poll, List.append_eq]
    rw [ih (v / 64) rest hdiv]
    simp [hsplit]

theorem poll_toDigits_unpoll (n v : Nat) (rest : List Nat) (hv : v < 64 ^ n) :
    poll n (toDigits (unpoll v n) ++ rest) = .ok (v, rest) := by
  rw [toDigits_unpoll]
  exact poll_digitsLE n v rest hv

theorem FIELD_NUM_CELLS_eq : FIELD_NUM_CELLS = 240 := rfl

/-! ## Field diff/run roundtrip -/

/-- Core roundtrip of the field pass: parsing the digits that
`encodeFieldAux` emits — while a run of `pend.length` cells with diff `d`
is pending and `cs`/`ps` are the remaining current/previous cells —
reconstructs exactly the pending cells (`prev + d - 8`) followed by the
remaining current cells, and consumes exactly those digits. -/
theorem parseFieldAux_encodeFieldAux :
    ∀ (cs ps pend : List Int) (m : Nat) (d : Int) (rest : List Nat),
      cs.length = ps.length →
      pend.length = m →
      1 ≤ m →
      m + cs.length ≤ 240 →
      0 ≤ d → d ≤ 16 →
      (∀ x ∈ fieldDiffs cs ps, 0 ≤ x ∧ x ≤ 16) →
      parseFieldAux (m + cs.length) (pend ++ ps)
        (toDigits (encodeFieldAux cs ps d m) ++ rest)
        = .ok (pend.map (fun p => p + d - 8) ++ cs, rest) := by
  intro cs
  induction cs with
  | nil =>
    intro ps pend m d rest hlen hpend hm1 hle hd0 hd16 _
    have hps : ps = [] := by
      cases ps with
      | nil => rfl
      | cons a l => simp at hlen
    subst hps
    obtain ⟨t, ht⟩ : ∃ t, m = t + 1 := ⟨m - 1, by omega⟩
    subst ht
    have hV : (d * (FIELD_NUM_CELLS : Int) + ((t + 1 : Nat) : Int) - 1).toNat
        = d.toNat * 240 + t := by
      rw [FIELD_NUM_CELLS_eq]
      omega
    simp only [encodeFieldAux, toDigits_unpoll, hV]
    set V : Nat := d.toNat * 240 + t with hVdef
    have hVlt : V < 4096 := by omega
    have hdigit0 : V % 64 + 64 * (V / 64 % 64) = V := by omega
    have hdiffV : V / FIELD_NUM_CELLS = d.toNat := by
      rw [FIELD_NUM_CELLS_eq]; omega
    have hrepV : V % FIELD_NUM_CELLS = t := by
      rw [FIELD_NUM_CELLS_eq]; omega
    simp only [List.length_nil, Nat.add_zero, List.append_nil, digitsLE,
      List.cons_append]
    simp only [parseFieldAux, hdigit0, hdiffV, hrepV]
    have hmin : min (t + 1) (t + 1) = t + 1 := Nat.min_self _
    simp only [hmin, Nat.sub_self, parseFieldAux]
    have hcast : ((d.toNat : Int)) = d := Int.toNat_of_nonneg hd0
    simp [hcast, List.take_of_length_le (le_of_eq hpend),
      List.drop_eq_nil_of_le (le_of_eq hpend)]
  | cons c cs' ih =>
    intro ps pend m d rest hlen hpend hm1 hle hd0 hd16 hdiffs
    cases ps with
    | nil => simp at hlen
    | cons p ps' =>
    have hdc : 0 ≤ c - p + 8 ∧ c - p + 8 ≤ 16 := by
      apply hdiffs
      simp [fieldDiffs]
    have hdiffs' : ∀ x ∈ fieldDiffs cs' ps', 0 ≤ x ∧ x ≤ 16 := by
      intro x hx
      apply hdiffs
      simp only [fieldDiffs, List.zipWith_cons_cons, List.mem_cons]
      exact Or.inr hx
    have hlen' : cs'.length = ps'.length := by simpa using hlen
    by_cases heq : c - p + 8 = d
    · -- same diff: the pending run grows by one cell
      have hstep : encodeFieldAux (c :: cs') (p :: ps') d m
          = encodeFieldAux cs' ps' d (m + 1) := by
        simp only [encodeFieldAux, heq]
        simp
      rw [hstep]
      have happ : pend ++ p :: ps' = (pend ++ [p]) ++ ps' := by simp
      have hlen2 : m + (c :: cs').length = (m + 1) + cs'.length := by
        simp only [List.length_cons]; omega
      rw [happ, hlen2]
      have hres := ih ps' (pend ++ [p]) (m + 1) d rest hlen'
        (by simp [hpend]) (by omega) (by simp at hle ⊢; omega) hd0 hd16 hdiffs'
      rw [hres]
      have hpc : p + d - 8 = c := by omega
      simp [hpc]
    · -- diff changes: the pending run is flushed, a new 1-cell run starts
      have hstep : encodeFieldAux (c :: cs') (p :: ps') d m
          = unpoll (d * (FIELD_NUM_CELLS : Int) + (m : Int) - 1).toNat 2 ++
            encodeFieldAux cs' ps' (c - p + 8) 1 := by
        simp only [encodeFieldAux, if_pos (by simpa using heq)]
      rw [hstep, toDigits_append, toDigits_unpoll]
      have hV : (d * (FIELD_NUM_CELLS : Int) + (m : Int) - 1).toNat
          = d.toNat * 240 + (m - 1) := by
        rw [FIELD_NUM_CELLS_eq]
        omega
      rw [hV]
      set V : Nat := d.toNat * 240 + (m - 1) with hVdef
      have hVlt : V < 4096 := by omega
      have hdigit0 : V % 64 + 64 * (V / 64 % 64) = V := by omega
      have hdiffV : V / FIELD_NUM_CELLS = d.toNat := by
        rw [FIELD_NUM_CELLS_eq]; omega
      have hrepV : V % FIELD_NUM_CELLS = m - 1 := by
        rw [FIELD_NUM_CELLS_eq]; omega
      obtain ⟨t, ht⟩ : ∃ t, m + (c :: cs').length = t + 1 :=
        ⟨m + cs'.length, by simp; omega⟩
      rw [ht]
      simp only [digitsLE, List.cons_append, List.append_assoc, List.nil_append]
      simp only [parseFieldAux, hdigit0, hdiffV, hrepV]
      have hm' : m - 1 + 1 = m := by omega
      have hmin : min (m - 1 + 1) (t + 1) = m := by
        simp only [List.length_cons] at ht; omega
      simp only [hmin]
      have htake : (pend ++ p :: ps').take m = pend := by
        rw [← hpend]
        exact List.take_left pend (p :: ps')
      have hdrop : (pend ++ p :: ps').drop m = p :: ps' := by
        rw [← hpend]
        exact List.drop_left pend (p :: ps')
      rw [htake, hdrop]
      have hrem : t + 1 - m = 1 + cs'.length := by
        simp only [List.length_cons] at ht; omega
      rw [hrem]
      have hres := ih ps' [p] 1 (c - p + 8) rest hlen' (by simp) (by omega)
        (by simp at hle ⊢; omega) hdc.1 hdc.2 hdiffs'
      simp only [List.singleton_append, List.map_cons, List.map_nil] at hres
      rw [hres]
      have hcast : ((d.toNat : Int)) = d := Int.toNat_of_nonneg hd0
      have hpc : p + (c - p + 8) - 8 = c := by ring
      simp [hcast, hpc]

/-- Field roundtrip for a whole 240-cell field. -/
theorem parseFieldAux_encodeField (cur prev : List Int) (rest : List Nat)
    (hcur : cur.length = FIELD_NUM_CELLS) (hprev : prev.length = FIELD_NUM_CELLS)
    (hdiffs : ∀ x ∈ fieldDiffs cur prev, 0 ≤ x ∧ x ≤ 16) :
    parseFieldAux FIELD_NUM_CELLS prev (toDigits (encodeField cur prev) ++ rest)
      = .ok (cur, rest) := by
  rw [FIELD_NUM_CELLS_eq] at hcur hprev
  cases cur with
  | nil => simp at hcur
  | cons c cs =>
  cases prev with
  | nil => simp at hprev
  | cons p ps =>
  have hd : 0 ≤ c - p + 8 ∧ c - p + 8 ≤ 16 := hdiffs _ (by simp [fieldDiffs])
  have hdiffs' : ∀ x ∈ fieldDiffs cs ps, 0 ≤ x ∧ x ≤ 16 := by
    intro x hx
    apply hdiffs
    simp only [fieldDiffs, List.zipWith_cons_cons, List.mem_cons]
    exact Or.inr hx
  have hres := parseFieldAux_encodeFieldAux cs ps [p] 1 (c - p + 8) rest
    (by simp at hcur hprev; omega) (by simp) (by omega)
    (by simp at hcur; omega) hd.1 hd.2 hdiffs'
  simp only [List.singleton_append, List.map_cons, List.map_nil] at hres
  have hn : FIELD_NUM_CELLS = 1 + cs.length := by
    rw [FIELD_NUM_CELLS_eq]; simp at hcur; omega
  rw [hn, show encodeField (c :: cs) (p :: ps) = encodeFieldAux cs ps (c - p + 8) 1
    from rfl, hres]
  have hpc : p + (c - p + 8) - 8 = c := by ring
  simp [hpc]

/-! ## Percent codec roundtrip -/

theorem hexDigitCode_bounds (d : Nat) (hd : d < 16) :
    48 ≤ hexDigitCode d ∧ hexDigitCode d ≤ 70 := by
  simp only [hexDigitCode]
  split <;> omega

theorem toHexUpper_mem (n : Nat) : ∀ x ∈ toHexUpper n, 48 ≤ x ∧ x ≤ 70 := by
  intro x hx
  simp only [toHexUpper] at hx
  split at hx
  · simp at hx
    subst hx
    exact hexDigitCode_bounds _ (by omega)
  · split at hx
    · simp at hx
      rcases hx with h | h <;> subst h <;> exact hexDigitCode_bounds _ (by omega)
    · split at hx
      · simp at hx
        rcases hx with h | h | h <;> subst h <;> exact hexDigitCode_bounds _ (by omega)
      · simp at hx
        rcases hx with h | h | h | h <;> subst h <;>
          exact hexDigitCode_bounds _ (by omega)

theorem percentEncodeChar_mem (c : Nat) : ∀ x ∈ percentEncodeChar c, 32 ≤ x ∧ x ≤ 126 := by
  intro x hx
  simp only [percentEncodeChar] at hx
  split at hx
  · rename_i hunres
    simp at hx
    subst hx
    simp [isUnreservedCode] at hunres
    omega
  · simp only [List.mem_cons] at hx
    rcases hx with h | hx
    · omega
    · split at hx
      · simp only [List.mem_cons] at hx
        rcases hx with h | hx
        · omega
        · have := toHexUpper_mem c x hx
          omega
      · have := toHexUpper_mem c x hx
        omega

theorem percentEncode_mem (s : List Nat) : ∀ x ∈ percentEncode s, 32 ≤ x ∧ x ≤ 126 := by
  induction s with
  | nil => simp [percentEncode]
  | cons c s ih =>
    intro x hx
    simp only [percentEncode, List.mem_append] at hx
    rcases hx with h | h
    · exact percentEncodeChar_mem c x h
    · exact ih x h

theorem isUnreserved_ne_percent (c : Nat) (h : isUnreservedCode c = true) : c ≠ 37 := by
  simp [isUnreservedCode] at h
  omega

/-- A non-`%` head passes through `percentDecode` unchanged. -/
theorem percentDecode_cons_ne (c : Nat) (t : List Nat) (hc : c ≠ 37) :
    percentDecode (c :: t) = c :: percentDecode t := by
  match t with
  | [] => rfl
  | [h1] => rfl
  | h1 :: h2 :: r =>
    rw [percentDecode]
    have : (c == 37) = false := by simpa using hc
    simp [this]

/-- A `%` escape with two valid hex digits decodes to the digits' value. -/
theorem percentDecode_escape (h1 h2 : Nat) (t : List Nat)
    (hh1 : isHexDigitCode h1 = true) (hh2 : isHexDigitCode h2 = true) :
    percentDecode (37 :: h1 :: h2 :: t) = (hexVal h1 * 16 + hexVal h2) :: percentDecode t := by
  rw [percentDecode]
  simp [hh1, hh2]

theorem isHexDigitCode_hexDigitCode : ∀ d < 16, isHexDigitCode (hexDigitCode d) = true := by
  decide

theorem hexVal_hexDigitCode : ∀ d < 16, hexVal (hexDigitCode d) = d := by
  decide

/-- `percentEncode` of a non-unreserved code `≤ 255` is exactly `%` plus the
two hex digits of the code. -/
theorem percentEncodeChar_escape (c : Nat) (hc : c ≤ 255)
    (h : isUnreservedCode c = false) :
    percentEncodeChar c = [37, hexDigitCode (c / 16), hexDigitCode (c % 16)] := by
  simp only [percentEncodeChar, h, Bool.false_eq_true, if_false]
  by_cases h16 : c < 16
  · have hdiv : c / 16 = 0 := by omega
    have hmod : c % 16 = c := by omega
    simp [toHexUpper, h16, hdiv, hmod, hexDigitCode]
  · have h256 : c < 256 := by omega
    simp [toHexUpper, h16, h256]

/-- Claim-level percent roundtrip: `percentDecode ∘ percentEncode` is the
identity on strings of code points `≤ 255`. -/
theorem percentDecode_percentEncode (s : List Nat) (h : ∀ c ∈ s, c ≤ 255) :
    percentDecode (percentEncode s) = s := by
  induction s with
  | nil => rfl
  | cons c s ih =>
    have hc : c ≤ 255 := h c (by simp)
    have ih' := ih (fun x hx => h x (by simp [hx]))
    by_cases hu : isUnreservedCode c
    · rw [show percentEncode (c :: s) = c :: percentEncode s by
        simp [percentEncode, percentEncodeChar, hu]]
      rw [percentDecode_cons_ne c _ (isUnreserved_ne_percent c hu), ih']
    · rw [show percentEncode (c :: s) = percentEncodeChar c ++ percentEncode s from rfl,
        percentEncodeChar_escape c hc (by simpa using hu)]
      rw [List.cons_append, List.cons_append, List.cons_append, List.nil_append]
      rw [percentDecode_escape _ _ _
        (isHexDigitCode_hexDigitCode _ (by omega))
        (isHexDigitCode_hexDigitCode _ (by omega))]
      rw [hexVal_hexDigitCode _ (by omega), hexVal_hexDigitCode _ (by omega), ih']
      congr 1
      omega

/-! ## Comment chunk roundtrip -/

theorem chunkValue_lt (a b c d : Nat) (ha : a ≤ 127) (hb : b ≤ 127) (hc : c ≤ 127)
    (hd : d ≤ 127) : chunkValue a b c d < 64 ^ 5 := by
  simp only [chunkValue]
  norm_num
  omega

theorem chunkChars_chunkValue (a b c d : Nat)
    (ha : 32 ≤ a ∧ a ≤ 127) (hb : 32 ≤ b ∧ b ≤ 127) (hc : 32 ≤ c ∧ c ≤ 127)
    (hd : 32 ≤ d ∧ d ≤ 127) :
    chunkChars (chunkValue a b c d) = [a, b, c, d] := by
  simp only [chunkChars, chunkValue, List.cons.injEq, and_true]
  refine ⟨by omega, by omega, by omega, by omega⟩

/-- One chunk parse step, for characters in the encodable range. -/
theorem parseChunks_one (a b c d : Nat) (n : Nat) (tail : List Nat)
    (ha : 32 ≤ a ∧ a ≤ 127) (hb : 32 ≤ b ∧ b ≤ 127) (hc : 32 ≤ c ∧ c ≤ 127)
    (hd : 32 ≤ d ∧ d ≤ 127) :
    parseChunks (n + 1) (toDigits (unpoll (chunkValue a b c d) 5) ++ tail)
      = match parseChunks n tail with
        | .ok (chars, rest2) => .ok (a :: b :: c :: d :: chars, rest2)
        | .error e => .error e := by
  simp only [parseChunks,
    poll_toDigits_unpoll 5 _ tail (chunkValue_lt a b c d ha.2 hb.2 hc.2 hd.2),
    chunkChars_chunkValue a b c d ha hb hc hd, List.cons_append, List.nil_append]

/-- Chunk-loop roundtrip: parsing the chunks that `encodeChunks` emits for an
escaped comment returns the comment padded with spaces to a multiple of four
characters, consuming exactly the chunk digits. -/
theorem parseChunks_encodeChunks :
    ∀ (esc : List Nat) (rest : List Nat),
      (∀ c ∈ esc, 32 ≤ c ∧ c ≤ 126) →
      parseChunks ((esc.length + 3) / 4) (toDigits (encodeChunks esc) ++ rest)
        = .ok (esc ++ List.replicate ((4 - esc.length % 4) % 4) 32, rest) := by
  intro esc
  induction esc using encodeChunks.induct with
  | case1 =>
    intro rest _
    simp [parseChunks, toDigits, encodeChunks]
  | case2 a =>
    intro rest hmem
    have ha := hmem a (by simp)
    rw [show encodeChunks [a] = unpoll (chunkValue a 32 32 32) 5 from rfl]
    rw [show ([a] : List Nat).length = 1 from rfl]
    rw [show (1 + 3) / 4 = 0 + 1 from rfl]
    rw [parseChunks_one a 32 32 32 0 rest ⟨ha.1, by omega⟩ (by omega) (by omega) (by omega)]
    rw [show parseChunks 0 rest = .ok ([], rest) from rfl]
    rfl
  | case3 a b =>
    intro rest hmem
    have ha := hmem a (by simp)
    have hb := hmem b (by simp)
    rw [show encodeChunks [a, b] = unpoll (chunkValue a b 32 32) 5 from rfl]
    rw [show ([a, b] : List Nat).length = 2 from rfl]
    rw [show (2 + 3) / 4 = 0 + 1 from rfl]
    rw [parseChunks_one a b 32 32 0 rest ⟨ha.1, by omega⟩ ⟨hb.1, by omega⟩
      (by omega) (by omega)]
    rw [show parseChunks 0 rest = .ok ([], rest) from rfl]
    rfl
  | case4 a b c =>
    intro rest hmem
    have ha := hmem a (by simp)
    have hb := hmem b (by simp)
    have hc := hmem c (by simp)
    rw [show encodeChunks [a, b, c] = unpoll (chunkValue a b c 32) 5 from rfl]
    rw [show ([a, b, c] : List Nat).length = 3 from rfl]
    rw [show (3 + 3) / 4 = 0 + 1 from rfl]
    rw [parseChunks_one a b c 32 0 rest ⟨ha.1, by omega⟩ ⟨hb.1, by omega⟩
      ⟨hc.1, by omega⟩ (by omega)]
    rw [show parseChunks 0 rest = .ok ([], rest) from rfl]
    rfl
  | case5 a b c d t ih =>
    intro rest hmem
    have ha := hmem a (by simp)
    have hb := hmem b (by simp)
    have hc := hmem c (by simp)
    have hd := hmem d (by simp)
    have hmem' : ∀ x ∈ t, 32 ≤ x ∧ x ≤ 126 := fun x hx => hmem x (by simp [hx])
    rw [show encodeChunks (a :: b :: c :: d :: t)
      = unpoll (chunkValue a b c d) 5 ++ encodeChunks t from rfl]
    rw [toDigits_append, List.append_assoc]
    have hlen : ((a :: b :: c :: d :: t).length + 3) / 4 = (t.length + 3) / 4 + 1 := by
      simp only [List.length_cons]
      omega
    rw [hlen]
    rw [parseChunks_one a b c d _ _ ⟨ha.1, by omega⟩ ⟨hb.1, by omega⟩
      ⟨hc.1, by omega⟩ ⟨hd.1, by omega⟩]
    rw [ih rest hmem']
    have hpad : (4 - (a :: b :: c :: d :: t).length % 4) % 4 = (4 - t.length % 4) % 4 := by
      simp only [List.length_cons]
      omega
    rw [hpad]
    simp

/-! ## Descriptor pack/unpack -/

/-- The five boolean bits of the descriptor, unpacked by repeated `% 2` and
`/ 2`. -/
theorem bits_unpack (b0 b1 b2 b3 b4 : Nat) (h0 : b0 ≤ 1) (h1 : b1 ≤ 1)
    (h2 : b2 ≤ 1) (h3 : b3 ≤ 1) (h4 : b4 ≤ 1) :
    b0 + 2 * b1 + 4 * b2 + 8 * b3 + 16 * b4 < 32 ∧
    (b0 + 2 * b1 + 4 * b2 + 8 * b3 + 16 * b4) % 2 = b0 ∧
    (b0 + 2 * b1 + 4 * b2 + 8 * b3 + 16 * b4) / 2 % 2 = b1 ∧
    (b0 + 2 * b1 + 4 * b2 + 8 * b3 + 16 * b4) / 2 / 2 % 2 = b2 ∧
    (b0 + 2 * b1 + 4 * b2 + 8 * b3 + 16 * b4) / 2 / 2 / 2 % 2 = b3 ∧
    (b0 + 2 * b1 + 4 * b2 + 8 * b3 + 16 * b4) / 2 / 2 / 2 / 2 % 2 = b4 := by
  omega

/-- The radix chain `type, rotation, location, bits`, unpacked by `% 8`,
`% 4`, `% 240`. -/
theorem descriptor_unpack (t r L bits : Nat) (ht : t < 8) (hr : r < 4)
    (hL : L < 240) (hb : bits < 32) :
    (t + (r + (L + bits * FIELD_NUM_CELLS) * 4) * 8) % 8 = t ∧
    (t + (r + (L + bits * FIELD_NUM_CELLS) * 4) * 8) / 8 % 4 = r ∧
    (t + (r + (L + bits * FIELD_NUM_CELLS) * 4) * 8) / 8 / 4 % FIELD_NUM_CELLS = L ∧
    (t + (r + (L + bits * FIELD_NUM_CELLS) * 4) * 8) / 8 / 4 / FIELD_NUM_CELLS = bits ∧
    (t + (r + (L + bits * FIELD_NUM_CELLS) * 4) * 8) < 64 ^ 3 := by
  rw [FIELD_NUM_CELLS_eq]
  norm_num
  omega

theorem bit_ne_zero (b : Bool) : (((if b then (1 : Nat) else 0)) != 0) = b := by
  cases b <;> rfl

theorem bit_eq_zero_lock (b : Bool) : (((if b then (0 : Nat) else 1)) == 0) = b := by
  cases b <;> rfl

/-- Per-page roundtrip: parsing the digits `encodePage` emits for an
in-range page against the same previous page reconstructs that page and
consumes exactly those digits. -/
theorem parsePage_encodePage (prevPage page : FumenPage) (rest : List Nat)
    (hprev : prevPage.field.length = FIELD_NUM_CELLS)
    (hv : ValidPage prevPage page) :
    parsePage prevPage (toDigits (encodePage prevPage page) ++ rest)
      = .ok (page, rest) := by
  obtain ⟨f, ⟨t, r, L⟩, ⟨ra, mi, co, lo, com⟩⟩ := page
  obtain ⟨hflen, ht, hr, hL, hdiffs, hcom, hclen⟩ := hv
  dsimp only at hflen ht hr hL hdiffs hcom hclen
  have h0 : (if ra then (1 : Nat) else 0) ≤ 1 := by split <;> omega
  have h1 : (if mi then (1 : Nat) else 0) ≤ 1 := by split <;> omega
  have h2 : (if co then (1 : Nat) else 0) ≤ 1 := by split <;> omega
  have h3 : (if com.length > 0 then (1 : Nat) else 0) ≤ 1 := by split <;> omega
  have h4 : (if lo then (0 : Nat) else 1) ≤ 1 := by split <;> omega
  obtain ⟨hblt, hb0, hb1, hb2, hb3, hb4⟩ := bits_unpack _ _ _ _ _ h0 h1 h2 h3 h4
  obtain ⟨hd0, hd1, hd2, hd3, hdlt⟩ := descriptor_unpack t r L _ ht hr hL hblt
  have hpack : packValue ⟨f, ⟨t, r, L⟩, ⟨ra, mi, co, lo, com⟩⟩
      = t + (r + (L + ((if ra then (1 : Nat) else 0) + 2 * (if mi then (1 : Nat) else 0) +
          4 * (if co then (1 : Nat) else 0) + 8 * (if com.length > 0 then (1 : Nat) else 0) +
          16 * (if lo then (0 : Nat) else 1)) * FIELD_NUM_CELLS) * 4) * 8 := by
    simp only [packValue]
    ring
  simp only [encodePage, toDigits_append, List.append_assoc]
  rw [parsePage, hpack]
  rw [parseFieldAux_encodeField f prevPage.field _ hflen hprev hdiffs]
  dsimp only
  rw [poll_toDigits_unpoll 3 _ _ hdlt]
  dsimp only
  rw [hd0, hd1, hd2, hd3, hb0, hb1, hb2, hb3, hb4]
  rw [bit_ne_zero ra, bit_ne_zero mi, bit_ne_zero co, bit_eq_zero_lock lo]
  cases com with
  | nil =>
    simp [toDigits]
  | cons c0 com' =>
    have hgt : (c0 :: com').length > 0 := by simp
    simp only [hgt, if_true, bne_self_eq_false]
    have hesclen : (percentEncode (c0 :: com')).length < 64 ^ 2 := by
      norm_num
      omega
    have hmem : ∀ x ∈ percentEncode (c0 :: com'), 32 ≤ x ∧ x ≤ 126 :=
      percentEncode_mem _
    simp only [toDigits_append, List.append_assoc]
    rw [poll_toDigits_unpoll 2 _ _ hesclen]
    dsimp only
    rw [parseChunks_encodeChunks _ _ hmem]
    dsimp only
    rw [List.take_left]
    rw [percentDecode_percentEncode _ hcom]
    simp

/-! ## Whole-stream roundtrip -/

theorem toDigits_unpoll_length (v n : Nat) : (toDigits (unpoll v n)).length = n := by
  rw [toDigits_unpoll]
  exact length_digitsLE v n

theorem encodePage_digits_pos (p q : FumenPage) :
    0 < (toDigits (encodePage p q)).length := by
  simp only [encodePage, toDigits_append, List.length_append, toDigits_unpoll_length]
  omega

/-- The page loop applied to the digits `encodeAux` emits for a valid page
chain reconstructs the chain, for any fuel at least the stream length. -/
theorem decodeLoop_encodeAux :
    ∀ (pages : List FumenPage) (prevPage : FumenPage) (fuel : Nat),
      prevPage.field.length = FIELD_NUM_CELLS →
      ValidChain prevPage pages →
      (toDigits (encodeAux prevPage pages)).length ≤ fuel →
      decodeLoop fuel prevPage (toDigits (encodeAux prevPage pages)) = .ok pages := by
  intro pages
  induction pages with
  | nil =>
    intro prev fuel _ _ _
    rw [show encodeAux prev [] = [] from rfl]
    cases fuel <;> rfl
  | cons page pages ih =>
    intro prev fuel hprev hvc hfuel
    obtain ⟨hvp, hvc'⟩ := hvc
    rw [show encodeAux prev (page :: pages)
      = encodePage prev page ++ encodeAux page pages from rfl] at hfuel ⊢
    rw [toDigits_append] at hfuel ⊢
    have hpos := encodePage_digits_pos prev page
    have hne : toDigits (encodePage prev page) ++ toDigits (encodeAux page pages) ≠ [] := by
      intro h
      have := congrArg List.length h
      simp only [List.length_append, List.length_nil] at this
      omega
    obtain ⟨fuel', rfl⟩ : ∃ f', fuel = f' + 1 := by
      cases fuel with
      | zero =>
        exfalso
        simp only [List.length_append] at hfuel
        omega
      | succ f => exact ⟨f, rfl⟩
    obtain ⟨d, ds, hcons⟩ := List.exists_cons_of_ne_nil hne
    rw [hcons, decodeLoop, ← hcons,
      parsePage_encodePage prev page _ hprev hvp]
    have hlen' : (toDigits (encodeAux page pages)).length ≤ fuel' := by
      simp only [List.length_append] at hfuel
      omega
    dsimp only
    rw [ih page fuel' hvp.1 hvc' hlen']

/-- Main roundtrip: `decode ∘ encode` is the identity on valid page
chains. -/
theorem decode_encode (pages : List FumenPage)
    (h : ValidChain defaultFumenPage pages) :
    decode (encode pages) = some pages := by
  rw [encode, decode]
  rw [List.take_left, if_pos rfl, List.drop_left]
  dsimp only
  rw [decodeLoop_encodeAux pages defaultFumenPage _
    (by simp [defaultFumenPage]) h (le_refl _)]

/-! ## Structure of successful decodes -/

/-- A successful page loop on a non-empty stream starts with a successful
`parsePage`, and the first result page is that parse's page. -/
theorem decodeLoop_ok_cons (fuel : Nat) (prevPage : FumenPage) (d : Nat)
    (ds : List Nat) (l : List FumenPage)
    (h : decodeLoop fuel prevPage (d :: ds) = .ok l) :
    ∃ q rest l', parsePage prevPage (d :: ds) = .ok (q, rest) ∧ l = q :: l' := by
  cases fuel with
  | zero => exact absurd h (by rw [decodeLoop]; intro hc; cases hc)
  | succ fuel =>
    rw [decodeLoop] at h
    cases hp : parsePage prevPage (d :: ds) with
    | error e => rw [hp] at h; cases h
    | ok qr =>
      obtain ⟨q, rest⟩ := qr
      rw [hp] at h
      dsimp only at h
      cases hl : decodeLoop fuel q rest with
      | error e => rw [hl] at h; cases h
      | ok l' =>
        rw [hl] at h
        dsimp only at h
        cases h
        exact ⟨q, rest, l', rfl, rfl⟩

/-- `percentEncode` passes a string of unreserved characters through
unchanged. -/
theorem percentEncode_unreserved (s : List Nat)
    (h : ∀ c ∈ s, isUnreservedCode c = true) : percentEncode s = s := by
  induction s with
  | nil => rfl
  | cons c s ih =>
    rw [show percentEncode (c :: s) = percentEncodeChar c ++ percentEncode s from rfl]
    rw [show percentEncodeChar c = [c] by simp [percentEncodeChar, h c (by simp)]]
    rw [ih (fun x hx => h x (by simp [hx]))]
    rfl

theorem fieldDiffs_self (l : List Int) :
    fieldDiffs l l = List.replicate l.length 8 := by
  induction l with
  | nil => rfl
  | cons x xs ih =>
    simp only [fieldDiffs, List.zipWith_cons_cons, List.length_cons,
      List.replicate_succ] at ih ⊢
    rw [ih]
    norm_num

/-! ## Run-entry counting (field diff run boundaries) -/

/-- The field pass emits one 2-symbol group per maximal run: its output
length is twice the number of adjacent diff changes plus one, counting the
pending run's diff in front. -/
theorem length_encodeFieldAux :
    ∀ (cs ps : List Int) (d : Int) (m : Nat),
      (encodeFieldAux cs ps d m).length
        = 2 * (changes (d :: fieldDiffs cs ps) + 1) := by
  intro cs
  induction cs with
  | nil =>
    intro ps d m
    rw [show encodeFieldAux [] ps d m
      = unpoll (d * (FIELD_NUM_CELLS : Int) + (m : Int) - 1).toNat 2 from rfl]
    simp [length_unpoll, fieldDiffs, changes]
  | cons c cs' ih =>
    intro ps d m
    cases ps with
    | nil =>
      rw [show encodeFieldAux (c :: cs') [] d m
        = unpoll (d * (FIELD_NUM_CELLS : Int) + (m : Int) - 1).toNat 2 from rfl]
      simp [length_unpoll, fieldDiffs, changes]
    | cons p ps' =>
      by_cases heq : c - p + 8 = d
      · rw [show encodeFieldAux (c :: cs') (p :: ps') d m
          = encodeFieldAux cs' ps' d (m + 1) by
            simp only [encodeFieldAux, heq]; simp]
        rw [ih ps' d (m + 1)]
        rw [show fieldDiffs (c :: cs') (p :: ps')
          = (c - p + 8) :: fieldDiffs cs' ps' from rfl]
        rw [changes, if_pos heq.symm, heq]
        omega
      · rw [show encodeFieldAux (c :: cs') (p :: ps') d m
          = unpoll (d * (FIELD_NUM_CELLS : Int) + (m : Int) - 1).toNat 2 ++
            encodeFieldAux cs' ps' (c - p + 8) 1 by
            simp only [encodeFieldAux, if_pos (by simpa using heq)]]
        rw [List.length_append, length_unpoll, ih ps' (c - p + 8) 1]
        have hne : ¬(d = c - p + 8) := fun hc => heq hc.symm
        simp only [fieldDiffs, List.zipWith_cons_cons, changes, if_neg hne]
        omega

/-- Run-entry count of a whole non-empty field: adjacent diff changes plus
one. -/
theorem fieldRunEntries_eq (cur prev : List Int) (hc : cur ≠ []) (hp : prev ≠ []) :
    fieldRunEntries cur prev = changes (fieldDiffs cur prev) + 1 := by
  cases cur with
  | nil => exact absurd rfl hc
  | cons c cs =>
  cases prev with
  | nil => exact absurd rfl hp
  | cons p ps =>
  rw [fieldRunEntries,
    show encodeField (c :: cs) (p :: ps) = encodeFieldAux cs ps (c - p + 8) 1 from rfl,
    length_encodeFieldAux cs ps (c - p + 8) 1]
  rw [show fieldDiffs (c :: cs) (p :: ps)
    = (c - p + 8) :: fieldDiffs cs ps from rfl]
  omega

theorem changes_replicate (x : Int) : ∀ b, changes (List.replicate b x) = 0 := by
  intro b
  induction b with
  | zero => rfl
  | succ b ih =>
    cases b with
    | zero => rfl
    | succ b' =>
      rw [List.replicate_succ, List.replicate_succ, changes, if_pos rfl,
        ← List.replicate_succ]
      simpa using ih

theorem changes_cons_replicate (x y : Int) (hxy : x ≠ y) :
    ∀ b, changes (y :: List.replicate b x) = if b = 0 then 0 else 1 := by
  intro b
  cases b with
  | zero => rfl
  | succ b' =>
    rw [List.replicate_succ, changes, if_neg (fun h : y = x => hxy h.symm),
      ← List.replicate_succ, changes_replicate x (b' + 1)]
    simp

theorem changes_replicate_append (x : Int) :
    ∀ (a : Nat) (rest : List Int),
      changes (List.replicate a x ++ x :: rest) = changes (x :: rest) := by
  intro a
  induction a with
  | zero => intro rest; rfl
  | succ a ih =>
    intro rest
    rw [List.replicate_succ, List.cons_append]
    cases a with
    | zero =>
      rw [show List.replicate 0 x ++ x :: rest = x :: rest from rfl, changes,
        if_pos rfl]
      omega
    | succ a' =>
      rw [List.replicate_succ, List.cons_append, changes, if_pos rfl,
        ← List.cons_append, ← List.replicate_succ, ih rest]
      omega

/-- Change count of a single altered entry inside a constant list. -/
theorem changes_one_change (x y : Int) (hxy : x ≠ y) (a b : Nat) :
    changes (List.replicate a x ++ y :: List.replicate b x)
      = (if a = 0 then 0 else 1) + (if b = 0 then 0 else 1) := by
  cases a with
  | zero =>
    rw [show List.replicate 0 x ++ y :: List.replicate b x
      = y :: List.replicate b x from rfl]
    rw [changes_cons_replicate x y hxy b]
    split <;> simp
  | succ a' =>
    have hrep : List.replicate (a' + 1) x ++ y :: List.replicate b x
        = List.replicate a' x ++ x :: (y :: List.replicate b x) := by
      rw [show List.replicate (a' + 1) x = List.replicate a' x ++ [x] by
        rw [List.replicate_succ' a' x]]
      simp
    rw [hrep, changes_replicate_append x a' (y :: List.replicate b x), changes]
    rw [changes_cons_replicate x y hxy b]
    simp [hxy]

/-- Diffs of a field equal to the baseline except one cell set from 0 to 1:
an 8-run with a single 9 at the set position. -/
theorem fieldDiffs_set (l : List Int) :
    ∀ (i : Nat), i < l.length → l.getD i 0 = 0 →
      fieldDiffs (l.set i 1) l
        = List.replicate i 8 ++ 9 :: List.replicate (l.length - i - 1) 8 := by
  induction l with
  | nil => intro i hi; simp at hi
  | cons x xs ih =>
    intro i hi h0
    cases i with
    | zero =>
      simp only [List.getD, List.getElem?_cons_zero, Option.getD_some] at h0
      rw [show (x :: xs).set 0 1 = 1 :: xs from rfl]
      rw [show fieldDiffs (1 :: xs) (x :: xs) = (1 - x + 8) :: fieldDiffs xs xs from rfl]
      rw [fieldDiffs_self xs]
      simp at h0
      rw [h0]
      norm_num
    | succ i' =>
      simp only [List.length_cons] at hi
      have h0' : xs.getD i' 0 = 0 := by simpa [List.getD] using h0
      rw [show (x :: xs).set (i' + 1) 1 = x :: xs.set i' 1 from rfl]
      rw [show fieldDiffs (x :: xs.set i' 1) (x :: xs)
        = (x - x + 8) :: fieldDiffs (xs.set i' 1) xs from rfl]
      rw [ih i' (by omega) h0']
      rw [show x - x + (8 : Int) = 8 by ring]
      have hlen : (x :: xs).length - (i' + 1) - 1 = xs.length - i' - 1 := by
        simp only [List.length_cons]
        omega
      rw [hlen, List.replicate_succ, List.cons_append]

/-! ## Single-page decode structure -/

/-- A successful decode of a single encoded page starts with a successful
`parsePage` of that page's digits, and the first decoded page is its
result. -/
theorem decode_encode_single (p : FumenPage) (l : List FumenPage)
    (h : decode (encode [p]) = some l) :
    ∃ q rest l',
      parsePage defaultFumenPage (toDigits (encodePage defaultFumenPage p))
        = .ok (q, rest) ∧ l = q :: l' := by
  rw [encode, decode, List.take_left, if_pos rfl, List.drop_left] at h
  dsimp only at h
  rw [show encodeAux defaultFumenPage [p] = encodePage defaultFumenPage p ++ [] from rfl,
    List.append_nil] at h
  have hpos := encodePage_digits_pos defaultFumenPage p
  obtain ⟨d, ds, hcons⟩ :=
    List.exists_cons_of_ne_nil
      (fun hc : toDigits (encodePage defaultFumenPage p) = [] => by
        rw [hc] at hpos; simp at hpos)
  rw [hcons] at h
  cases hloop : decodeLoop (d :: ds).length defaultFumenPage (d :: ds) with
  | error e => rw [hloop] at h; cases h
  | ok l0 =>
    rw [hloop] at h
    dsimp only at h
    cases h
    obtain ⟨q, rest, l', hpar, hl⟩ := decodeLoop_ok_cons _ _ _ _ _ hloop
    exact ⟨q, rest, l', by rw [hcons]; exact hpar, hl⟩

/-- Type-8 aliasing: whenever the encoding of a comment-free type-8 page
decodes at all, the decoded first page carries piece type 0, and the page
never round-trips. -/
theorem decode_encode_type8 (p : FumenPage) (ht : p.piece.type = 8)
    (hrot : p.piece.rotation < 4) (hloc : p.piece.location < FIELD_NUM_CELLS)
    (hflen : p.field.length = FIELD_NUM_CELLS)
    (hdiffs : ∀ d ∈ fieldDiffs p.field defaultFumenPage.field, 0 ≤ d ∧ d ≤ 16)
    (hcom : p.flags.comment = []) :
    (∀ l, decode (encode [p]) = some l → ∃ q l', l = q :: l' ∧ q.piece.type = 0) ∧
    decode (encode [p]) ≠ some [p] := by
  have hb0 : (if p.flags.raise then (1 : Nat) else 0) ≤ 1 := by split <;> omega
  have hb1 : (if p.flags.mirror then (1 : Nat) else 0) ≤ 1 := by split <;> omega
  have hb2 : (if p.flags.color then (1 : Nat) else 0) ≤ 1 := by split <;> omega
  have hb3 : (if p.flags.comment.length > 0 then (1 : Nat) else 0) ≤ 1 := by
    split <;> omega
  have hb4 : (if p.flags.lock then (0 : Nat) else 1) ≤ 1 := by split <;> omega
  rw [FIELD_NUM_CELLS_eq] at hloc
  have hpow : (64 : Nat) ^ 3 = 262144 := by norm_num
  have hmod : packValue p % 8 = 0 ∧ packValue p < 64 ^ 3 := by
    rw [hpow]
    simp only [packValue, ht, FIELD_NUM_CELLS_eq]
    omega
  have hmain : ∀ l, decode (encode [p]) = some l →
      ∃ q l', l = q :: l' ∧ q.piece.type = 0 := by
    intro l hl
    obtain ⟨q, rest, l', hpar, hcons⟩ := decode_encode_single p l hl
    rw [encodePage, toDigits_append, toDigits_append, List.append_assoc] at hpar
    rw [show (if p.flags.comment.length > 0 then
        unpoll (percentEncode p.flags.comment).length 2 ++
          encodeChunks (percentEncode p.flags.comment)
      else []) = [] by simp [hcom]] at hpar
    rw [show toDigits [] = [] from rfl, List.append_nil] at hpar
    rw [parsePage] at hpar
    rw [← List.append_nil (toDigits (unpoll (packValue p) 3))] at hpar
    rw [parseFieldAux_encodeField p.field defaultFumenPage.field _ hflen
      (by simp [defaultFumenPage]) hdiffs] at hpar
    dsimp only at hpar
    rw [poll_toDigits_unpoll 3 _ _ hmod.2] at hpar
    dsimp only at hpar
    split at hpar
    · rw [show poll 2 ([] : List Nat)
        = .error "Data stream ended unexpectedly during poll." from rfl] at hpar
      cases hpar
    · cases hpar
      refine ⟨_, l', hcons, ?_⟩
      exact hmod.1
  refine ⟨hmain, fun contra => ?_⟩
  obtain ⟨q, l', hql, hq0⟩ := hmain [p] contra
  have : q = p := by
    cases hql
    rfl
  rw [this, ht] at hq0
  cases hq0

/-- Length-field wraparound: a comment whose escaped length is 4096 is
encoded (the length field holds `4096 % 4096 = 0`), and the result does not
decode back to the original page. -/
theorem decode_encode_bigComment :
    decode (encode [commentPage 4096]) ≠ some [commentPage 4096] := by
  intro contra
  obtain ⟨q, rest, l', hpar, hcons⟩ := decode_encode_single _ _ contra
  have hesc : percentEncode (List.replicate 4096 65) = List.replicate 4096 65 :=
    percentEncode_unreserved _ (fun c hc => by
      rw [List.eq_of_mem_replicate hc]; decide)
  have hpv : packValue (commentPage 4096) = 92176 := by
    simp only [packValue, commentPage, List.length_replicate, FIELD_NUM_CELLS_eq]
    norm_num
  have hdiffs : ∀ d ∈ fieldDiffs (commentPage 4096).field defaultFumenPage.field,
      0 ≤ d ∧ d ≤ 16 := by
    rw [show defaultFumenPage.field = (commentPage 4096).field from rfl,
      fieldDiffs_self]
    intro d hd
    rw [List.eq_of_mem_replicate hd]
    norm_num
  rw [encodePage] at hpar
  rw [show (if (commentPage 4096).flags.comment.length > 0 then
      unpoll (percentEncode (commentPage 4096).flags.comment).length 2 ++
        encodeChunks (percentEncode (commentPage 4096).flags.comment)
    else []) = unpoll 4096 2 ++ encodeChunks (List.replicate 4096 65) by
      rw [show (commentPage 4096).flags.comment = List.replicate 4096 65 from rfl,
        hesc, List.length_replicate]
      rw [if_pos (by norm_num : (4096 : Nat) > 0)]] at hpar
  rw [hpv] at hpar
  simp only [toDigits_append, List.append_assoc] at hpar
  rw [parsePage] at hpar
  rw [parseFieldAux_encodeField (commentPage 4096).field defaultFumenPage.field _
    (show ((commentPage 4096).field).length = FIELD_NUM_CELLS by
      rw [show (commentPage 4096).field = List.replicate FIELD_NUM_CELLS 0 from rfl,
        List.length_replicate])
    (show (defaultFumenPage.field).length = FIELD_NUM_CELLS by
      rw [show defaultFumenPage.field = List.replicate FIELD_NUM_CELLS 0 from rfl,
        List.length_replicate])
    hdiffs] at hpar
  dsimp only at hpar
  rw [poll_toDigits_unpoll 3 _ _ (by norm_num)] at hpar
  dsimp only at hpar
  rw [show toDigits (unpoll 4096 2) = [0, 0] by decide] at hpar
  rw [show ((92176 : Nat) / 8 / 4 / FIELD_NUM_CELLS / 2 / 2 / 2 % 2 != 0) = true by decide]
    at hpar
  rw [if_pos rfl] at hpar
  rw [show ∀ r : List Nat, poll 2 (([0, 0] : List Nat) ++ r) = .ok (0, r) from
    fun r => rfl] at hpar
  dsimp only at hpar
  rw [show ∀ X : List Nat, parseChunks ((0 + 3) / 4) X = .ok ([], X) from
    fun X => rfl] at hpar
  dsimp only at hpar
  cases hpar
  injection hcons with h1 h2
  have hcomm := congrArg (fun pg => pg.flags.comment) h1
  have hlen := congrArg List.length hcomm
  dsimp only [commentPage, percentDecode] at hlen
  rw [List.length_replicate] at hlen
  simp at hlen

/-- `commentPage n` satisfies all range invariants when its (unreserved,
hence unexpanded) comment has length at most 4095. -/
theorem validPage_commentPage (n : Nat) (hn : n ≤ 4095) :
    ValidPage defaultFumenPage (commentPage n) := by
  have hesc : percentEncode (List.replicate n 65) = List.replicate n 65 :=
    percentEncode_unreserved _ (fun c hc => by
      rw [List.eq_of_mem_replicate hc]; decide)
  refine ⟨?_, ?_, ?_, ?_, ?_, ?_, ?_⟩
  · rw [show (commentPage n).field = List.replicate FIELD_NUM_CELLS 0 from rfl,
      List.length_replicate]
  · show (0 : Nat) < 8
    norm_num
  · show (2 : Nat) < 4
    norm_num
  · show (0 : Nat) < FIELD_NUM_CELLS
    rw [FIELD_NUM_CELLS_eq]
    norm_num
  · rw [show defaultFumenPage.field = (commentPage n).field from rfl, fieldDiffs_self]
    intro d hd
    rw [List.eq_of_mem_replicate hd]
    norm_num
  · intro c hc
    rw [show (commentPage n).flags.comment = List.replicate n 65 from rfl] at hc
    rw [List.eq_of_mem_replicate hc]
    norm_num
  · rw [show (commentPage n).flags.comment = List.replicate n 65 from rfl, hesc,
      List.length_replicate]
    exact hn

/-! ## The claims -/

set_option maxRecDepth 10000 in
/-- C1 (counterexample): two page lists that satisfy every invariant the
claim states — piece type in `[0,8)`, all field diffs in `[0,17]`, encoded
comment length at most 4095 — yet do not round-trip: `page17` (every diff is
17, so its single run value `17 * 240 + 239 = 4319` wraps modulo 4096 in two
base-64 digits) and `page256` (a comment code point above 255, which
percent-encodes to three hex digits and mis-decodes). -/
theorem c1_roundtrip_counterexample :
    (∀ d ∈ fieldDiffs page17.field defaultFumenPage.field, 0 ≤ d ∧ d ≤ 17) ∧
    page17.piece.type < 8 ∧
    (percentEncode page17.flags.comment).length ≤ 4095 ∧
    decode (encode [page17]) ≠ some [page17] ∧
    (∀ d ∈ fieldDiffs page256.field defaultFumenPage.field, 0 ≤ d ∧ d ≤ 17) ∧
    page256.piece.type < 8 ∧
    (percentEncode page256.flags.comment).length ≤ 4095 ∧
    decode (encode [page256]) ≠ some [page256] := by
  decide

/-- C1 (amended): for every list of pages satisfying the range invariants —
field length 240, piece type in `[0,8)`, rotation in `[0,4)`, location in
`[0,240)`, every per-cell field diff in `[0,16]` (tightened from the
claim's `[0,17]`, since a diff-17 run longer than 16 cells overflows the
2-digit run value), comment code points at most 255 (so percent-encoding is
reversible), and encoded comment length at most 4095 — decoding the encoded
string yields the original page list. -/
theorem c1_decode_encode_roundtrip (pages : List FumenPage)
    (h : ValidChain defaultFumenPage pages) :
    decode (encode pages) = some pages :=
  decode_encode pages h

set_option maxRecDepth 10000 in
/-- C1 (witness): a two-page fumen — the spec's concrete T-piece page
followed by a page with comment `"AA"` — satisfies the invariants and
round-trips. -/
theorem c1_decode_encode_roundtrip_witness :
    ValidChain defaultFumenPage [pageT, commentPage 2] ∧
    decode (encode [pageT, commentPage 2]) = some [pageT, commentPage 2] :=
  ⟨by decide, c1_decode_encode_roundtrip [pageT, commentPage 2] (by decide)⟩

/-- C2: whenever the digit stream after the tag makes the page loop throw
(in particular, when fewer digits remain than a field, descriptor, or
comment parse step requires), the entire decode returns `none`; no partial
page list escapes. -/
theorem c2_truncation_aborts (s : List Char) (e : String)
    (htag : s.take FUMEN_VERSION.length = FUMEN_VERSION)
    (herr : decodeLoop (toDigits (s.drop FUMEN_VERSION.length)).length
      defaultFumenPage (toDigits (s.drop FUMEN_VERSION.length)) = .error e) :
    decode s = none := by
  rw [decode, if_pos htag]
  dsimp only
  rw [herr]

set_option maxRecDepth 10000 in
/-- C2 (witness): `"v115@A"` leaves a single digit where the field parse
needs two, poll throws, and decode returns `none`. -/
theorem c2_truncation_aborts_witness :
    (FUMEN_VERSION ++ ['A']).take FUMEN_VERSION.length = FUMEN_VERSION ∧
    decodeLoop (toDigits ((FUMEN_VERSION ++ ['A']).drop FUMEN_VERSION.length)).length
      defaultFumenPage (toDigits ((FUMEN_VERSION ++ ['A']).drop FUMEN_VERSION.length))
      = .error "Data stream ended unexpectedly during poll." ∧
    decode (FUMEN_VERSION ++ ['A']) = none :=
  ⟨by decide, by decide,
    c2_truncation_aborts (FUMEN_VERSION ++ ['A'])
      "Data stream ended unexpectedly during poll." (by decide) (by decide)⟩

/-- C3: every input that does not begin with the exact `v115@` tag decodes
to `none`. -/
theorem c3_no_tag (s : List Char)
    (h : s.take FUMEN_VERSION.length ≠ FUMEN_VERSION) : decode s = none := by
  rw [decode, if_neg h]

/-- C3 (witness): `"hello"` does not begin with the tag and decodes to
`none`. -/
theorem c3_no_tag_witness :
    ("hello".toList.take FUMEN_VERSION.length ≠ FUMEN_VERSION) ∧
    decode "hello".toList = none :=
  ⟨by decide, c3_no_tag "hello".toList (by decide)⟩

/-- C4: `percentDecode ∘ percentEncode` is the identity on every string of
code points at most 255. -/
theorem c4_percent_roundtrip (s : List Nat) (h : ∀ c ∈ s, c ≤ 255) :
    percentDecode (percentEncode s) = s :=
  percentDecode_percentEncode s h

/-- C4 (witness): a string mixing pass-through characters, `%` itself, code
0 and code 255 round-trips. -/
theorem c4_percent_roundtrip_witness :
    (∀ c ∈ [72, 101, 37, 255, 0, 126], c ≤ 255) ∧
    percentDecode (percentEncode [72, 101, 37, 255, 0, 126])
      = [72, 101, 37, 255, 0, 126] :=
  ⟨by decide, c4_percent_roundtrip [72, 101, 37, 255, 0, 126] (by decide)⟩

/-- C5: the decode of a tagged string depends only on its non-filler
symbols: any two suffixes that agree after removing `?` fillers decode
identically, so inserting any number of fillers anywhere after the tag
(in particular at symbol-group boundaries) never changes the result. -/
theorem c5_filler_invariance (x y : List Char)
    (h : x.filter (fun c => c != '?') = y.filter (fun c => c != '?')) :
    decode (FUMEN_VERSION ++ x) = decode (FUMEN_VERSION ++ y) := by
  rw [decode, decode, List.take_left, List.take_left, if_pos rfl, if_pos rfl,
    List.drop_left, List.drop_left]
  dsimp only
  rw [show toDigits x = toDigits y by rw [toDigits, toDigits, h]]

/-- C5 (witness): inserting fillers at the ends of the digit groups of a
valid one-page stream leaves the decode unchanged. -/
theorem c5_filler_invariance_witness :
    (['v', 'h', '?', 'V', 'g', 'H', '?'].filter (fun c => c != '?')
      = ['?', 'v', 'h', 'V', 'g', 'H'].filter (fun c => c != '?')) ∧
    decode (FUMEN_VERSION ++ ['v', 'h', '?', 'V', 'g', 'H', '?'])
      = decode (FUMEN_VERSION ++ ['?', 'v', 'h', 'V', 'g', 'H']) :=
  ⟨by decide,
    c5_filler_invariance ['v', 'h', '?', 'V', 'g', 'H', '?']
      ['?', 'v', 'h', 'V', 'g', 'H'] (by decide)⟩

/-- C6: under the mixed-radix descriptor packing, piece types 0–7
round-trip (every in-range page round-trips whole); a comment-free page
with piece type 8 never round-trips, and whenever its encoding decodes at
all the decoded first page carries piece type 0 — the 9th type value
aliases onto 0 because the packed value is `8 + 8·k`, whose `% 8` is 0. -/
theorem c6_type8_aliases :
    (∀ p : FumenPage, ValidPage defaultFumenPage p →
      decode (encode [p]) = some [p]) ∧
    (∀ p : FumenPage, p.piece.type = 8 → p.piece.rotation < 4 →
      p.piece.location < FIELD_NUM_CELLS → p.field.length = FIELD_NUM_CELLS →
      (∀ d ∈ fieldDiffs p.field defaultFumenPage.field, 0 ≤ d ∧ d ≤ 16) →
      p.flags.comment = [] →
      (∀ l, decode (encode [p]) = some l → ∃ q l', l = q :: l' ∧ q.piece.type = 0) ∧
      decode (encode [p]) ≠ some [p]) :=
  ⟨fun p h => decode_encode [p] ⟨h, trivial⟩,
   fun p h1 h2 h3 h4 h5 h6 => decode_encode_type8 p h1 h2 h3 h4 h5 h6⟩

set_option maxRecDepth 10000 in
/-- C6 (witness): the concrete T-piece page (type 5) round-trips, and the
type-8 page `page8` does not round-trip. -/
theorem c6_type8_aliases_witness :
    ValidPage defaultFumenPage pageT ∧ decode (encode [pageT]) = some [pageT] ∧
    page8.piece.type = 8 ∧ decode (encode [page8]) ≠ some [page8] :=
  ⟨by decide, c6_type8_aliases.1 pageT (by decide), by decide,
    (c6_type8_aliases.2 page8 (by decide) (by decide) (by decide) (by decide)
      (by decide) (by decide)).2⟩

/-- C7 (counterexample): diff 17 with run length 240 — both inside the
claim's stated ranges — produces run value `17 * 240 + 239 = 4319 ≥ 4096`,
and two base-64 digits truncate it: polling back the digits `unpoll` emits
yields 223, not 4319. -/
theorem c7_run_value_counterexample :
    (17 : Nat) ≤ 17 ∧ (1 : Nat) ≤ 240 ∧ (240 : Nat) ≤ 240 ∧
    ¬(17 * 240 + (240 - 1) < 4096) ∧
    poll 2 (toDigits (unpoll (17 * 240 + (240 - 1)) 2))
      = .ok (223, []) := by
  decide

/-- C7 (amended): for every diff in `[0,16]` and run length in `[1,240]`
the encoded run value `diff * 240 + (runLength - 1)` is below 4096 and so
survives the 2-digit base-64 round-trip intact; the claim's bound
`diff ∈ [0,17]` fails at diff 17 for run lengths above 16. -/
theorem c7_run_value_fits (diff runLength : Nat) (hd : diff ≤ 16)
    (h1 : 1 ≤ runLength) (h2 : runLength ≤ 240) :
    diff * 240 + (runLength - 1) < 4096 ∧
    poll 2 (toDigits (unpoll (diff * 240 + (runLength - 1)) 2))
      = .ok (diff * 240 + (runLength - 1), []) := by
  have hlt : diff * 240 + (runLength - 1) < 4096 := by omega
  refine ⟨hlt, ?_⟩
  have := poll_toDigits_unpoll 2 (diff * 240 + (runLength - 1)) [] (by
    rw [show (64 : Nat) ^ 2 = 4096 by norm_num]
    exact hlt)
  rwa [List.append_nil] at this

/-- C7 (witness): the extreme in-range corner diff 16, run length 240. -/
theorem c7_run_value_fits_witness :
    (16 : Nat) ≤ 16 ∧ (1 : Nat) ≤ 240 ∧ (240 : Nat) ≤ 240 ∧
    (16 * 240 + (240 - 1) < 4096 ∧
      poll 2 (toDigits (unpoll (16 * 240 + (240 - 1)) 2))
        = .ok (16 * 240 + (240 - 1), [])) :=
  ⟨by decide, by decide, by decide,
    c7_run_value_fits 16 240 (by decide) (by decide) (by decide)⟩

/-- C8 (counterexample): the page whose comment is 4096 `A`s — escaped
length exactly 4096 — is not rejected at encode time: `encode` produces a
string (its length field wraps to `4096 % 4096 = 0`), and that string does
not decode back to the page. -/
theorem c8_overflow_counterexample :
    (percentEncode (commentPage 4096).flags.comment).length = 4096 ∧
    decode (encode [commentPage 4096]) ≠ some [commentPage 4096] := by
  constructor
  · rw [show (commentPage 4096).flags.comment = List.replicate 4096 65 from rfl,
      percentEncode_unreserved _ (fun c hc => by
        rw [List.eq_of_mem_replicate hc]; decide),
      List.length_replicate]
  · exact decode_encode_bigComment

/-- C8 (amended): comments with percent-encoded lengths 0, 1, 4, 5 and 4095
all round-trip through encode then decode; a comment whose escaped length
is 4096 is not rejected at encode time — the 2-digit length field silently
wraps modulo 4096 — and the encoded string no longer decodes back to the
original page. -/
theorem c8_comment_length_boundary :
    decode (encode [commentPage 0]) = some [commentPage 0] ∧
    decode (encode [commentPage 1]) = some [commentPage 1] ∧
    decode (encode [commentPage 4]) = some [commentPage 4] ∧
    decode (encode [commentPage 5]) = some [commentPage 5] ∧
    decode (encode [commentPage 4095]) = some [commentPage 4095] ∧
    (percentEncode (commentPage 4096).flags.comment).length = 4096 ∧
    decode (encode [commentPage 4096]) ≠ some [commentPage 4096] := by
  refine ⟨?_, ?_, ?_, ?_, ?_, ?_, decode_encode_bigComment⟩
  · exact decode_encode _ ⟨validPage_commentPage 0 (by norm_num), trivial⟩
  · exact decode_encode _ ⟨validPage_commentPage 1 (by norm_num), trivial⟩
  · exact decode_encode _ ⟨validPage_commentPage 4 (by norm_num), trivial⟩
  · exact decode_encode _ ⟨validPage_commentPage 5 (by norm_num), trivial⟩
  · exact decode_encode _ ⟨validPage_commentPage 4095 (by norm_num), trivial⟩
  · rw [show (commentPage 4096).flags.comment = List.replicate 4096 65 from rfl,
      percentEncode_unreserved _ (fun c hc => by
        rw [List.eq_of_mem_replicate hc]; decide),
      List.length_replicate]

set_option maxRecDepth 10000 in
/-- C9 (counterexample): changing cell 1 — an interior cell — from 0 to 1
makes the encoder emit three run entries for the field, not the claimed
two. -/
theorem c9_run_entries_counterexample :
    (List.replicate 240 (0 : Int)).getD 1 0 = 0 ∧
    fieldRunEntries ((List.replicate 240 (0 : Int)).set 1 1)
      (List.replicate 240 0) = 3 ∧
    fieldRunEntries ((List.replicate 240 (0 : Int)).set 1 1)
      (List.replicate 240 0) ≠ 2 := by
  decide

/-- C9 (amended): when page 2's field differs from page 1's in exactly one
cell, changed from 0 to 1, the encoder emits one run entry per maximal
block of equal diffs: exactly two entries when the changed cell is the
first or the last cell, exactly three when it is interior — and never a
single merged run. -/
theorem c9_run_entries (prev : List Int) (i : Nat) (hlen : prev.length = 240)
    (hi : i < 240) (h0 : prev.getD i 0 = 0) :
    fieldRunEntries (prev.set i 1) prev
      = (if i = 0 ∨ i = 239 then 2 else 3) ∧
    fieldRunEntries (prev.set i 1) prev ≠ 1 := by
  have hne : prev ≠ [] := by
    intro hc
    rw [hc] at hlen
    simp at hlen
  have hne' : prev.set i 1 ≠ [] := by
    intro hc
    have := congrArg List.length hc
    simp only [List.length_set, hlen] at this
    simp at this
  rw [fieldRunEntries_eq _ _ hne' hne,
    fieldDiffs_set prev i (by omega) h0, hlen,
    changes_one_change 8 9 (by norm_num) i (240 - i - 1)]
  constructor
  · split_ifs <;> omega
  · split_ifs <;> omega

set_option maxRecDepth 10000 in
/-- C9 (witness): changing the last cell (index 239) gives exactly two run
entries. -/
theorem c9_run_entries_witness :
    ((List.replicate 240 (0 : Int)).length = 240 ∧
      (List.replicate 240 (0 : Int)).getD 239 0 = 0) ∧
    (fieldRunEntries ((List.replicate 240 (0 : Int)).set 239 1)
        (List.replicate 240 0)
      = (if (239 : Nat) = 0 ∨ (239 : Nat) = 239 then 2 else 3) ∧
    fieldRunEntries ((List.replicate 240 (0 : Int)).set 239 1)
        (List.replicate 240 0) ≠ 1) :=
  ⟨⟨by decide, by decide⟩,
    c9_run_entries (List.replicate 240 0) 239 (by decide) (by decide) (by decide)⟩

/-- C10: decode is total and never propagates an exception: for every
input it either returns `none`, or returns `some pages` exactly when the
caught page loop finished with a success — every internal parse failure is
mapped to `none`. -/
theorem c10_decode_total (s : List Char) :
    decode s = none ∨
    ∃ pages, decode s = some pages ∧
      decodeLoop (toDigits (s.drop FUMEN_VERSION.length)).length
        defaultFumenPage (toDigits (s.drop FUMEN_VERSION.length)) = .ok pages := by
  rw [decode]
  by_cases h : s.take FUMEN_VERSION.length = FUMEN_VERSION
  · rw [if_pos h]
    dsimp only
    cases hl : decodeLoop (toDigits (s.drop FUMEN_VERSION.length)).length
        defaultFumenPage (toDigits (s.drop FUMEN_VERSION.length)) with
    | error e => left; rfl
    | ok pages => right; exact ⟨pages, rfl, rfl⟩
  · rw [if_neg h]
    left
    rfl

end Tetfu
